import Mathlib

/-!
Shallow embedding of the guest-kernel address-space authority of
`src/core/hle/kernel/k_memory_region.h`:

* `KMemoryRegion` — an address-range record with inclusive bounds, a paired
  address, an attribute bitmask and a hierarchical type bitmask.
* `KMemoryRegionTree` — an ordered, non-overlapping collection of regions,
  modelled here as an address-sorted list (the intrusive red-black tree
  container is not among the source files; its search is driven entirely by
  `KMemoryRegion::Compare`, which is in the source).
* `KMemoryRegionAllocator` — a fixed-capacity bump arena of region slots.

Machine integers are modelled as `Nat` with explicit `% 2^64` where 64-bit
wrap-around matters.  A C++ `ASSERT` is a fatal abort in the source, so an
operation guarded by one returns an `Option`, with `none` standing for the
fatal path.
-/

namespace Kernel

/-- Size of the 64-bit machine-word domain. -/
def U64 : Nat := 2 ^ 64

/-- The address-range record of `k_memory_region.h`.  Fields mirror the
private members `address`, `last_address`, `pair_address`, `attributes`
and `type_id`. -/
structure KMemoryRegion where
  address : Nat
  last_address : Nat
  pair_address : Nat
  attributes : Nat
  type_id : Nat
  deriving Repr, DecidableEq

namespace KMemoryRegion

/-- The default constructor `KMemoryRegion()`: every member initializer is
`{}`, so all fields are zero. -/
def mkDefault : KMemoryRegion := ⟨0, 0, 0, 0, 0⟩

/-- The two-argument constructor `KMemoryRegion(address_, last_address_)`:
only the bounds are set; the remaining members keep their `{}` (zero)
member initializers. -/
def mkBounds (address_ last_address_ : Nat) : KMemoryRegion :=
  ⟨address_, last_address_, 0, 0, 0⟩

/-- The five-argument constructor
`KMemoryRegion(address_, last_address_, pair_address_, attributes_, type_id_)`. -/
def mkFull (address_ last_address_ pair_address_ attributes_ type_id_ : Nat) :
    KMemoryRegion :=
  ⟨address_, last_address_, pair_address_, attributes_, type_id_⟩

/-- The four-argument constructor
`KMemoryRegion(address_, last_address_, attributes_, type_id_)`, which
delegates to the five-argument one with
`pair_address_ = std::numeric_limits<u64>::max()`. -/
def mkTyped (address_ last_address_ attributes_ type_id_ : Nat) : KMemoryRegion :=
  mkFull address_ last_address_ (U64 - 1) attributes_ type_id_

/-- `KMemoryRegion::GetEndAddress`: `last_address + 1` in 64-bit arithmetic. -/
def GetEndAddress (r : KMemoryRegion) : Nat :=
  (r.last_address + 1) % U64

/-- `KMemoryRegion::IsDerivedFrom`: `(GetType() | type) == GetType()`. -/
def IsDerivedFrom (r : KMemoryRegion) (type : Nat) : Bool :=
  (r.type_id ||| type) == r.type_id

/-- `KMemoryRegion::HasTypeAttribute`: `(GetType() | attr) == GetType()`. -/
def HasTypeAttribute (r : KMemoryRegion) (attr : Nat) : Bool :=
  (r.type_id ||| attr) == r.type_id

/-- `KMemoryRegion::CanDerive`: `(GetType() | type) == type`. -/
def CanDerive (r : KMemoryRegion) (type : Nat) : Bool :=
  (r.type_id ||| type) == type

/-- `KMemoryRegion::SetType`: `ASSERT(CanDerive(type))`, then
`type_id = type`.  The fatal assertion is the `none` branch. -/
def SetType (r : KMemoryRegion) (type : Nat) : Option KMemoryRegion :=
  if r.CanDerive type then some { r with type_id := type } else none

/-- `KMemoryRegion::Contains`: `ASSERT(GetEndAddress() != 0)`, then
`GetAddress() <= address && address <= GetLastAddress()`.  The fatal
assertion is the `none` branch. -/
def Contains (r : KMemoryRegion) (address : Nat) : Option Bool :=
  if r.GetEndAddress = 0 then none
  else some (decide (r.address ≤ address ∧ address ≤ r.last_address))

/-- `KMemoryRegion::SetTypeAttribute`: unconditionally ORs into the type
bitmask. -/
def SetTypeAttribute (r : KMemoryRegion) (attr : Nat) : KMemoryRegion :=
  { r with type_id := r.type_id ||| attr }

/-- `KMemoryRegion::Compare`: `-1` when the probe's address is strictly
below the stored region's, `0` when the probe's address falls inside the
stored region's `[address, last_address]` span, else `1`. -/
def Compare (lhs rhs : KMemoryRegion) : Int :=
  if lhs.address < rhs.address then -1
  else if lhs.address ≤ rhs.last_address then 0
  else 1

end KMemoryRegion

/-- A region is internally valid when its inclusive bounds are ordered. -/
def ValidRegion (r : KMemoryRegion) : Prop :=
  r.address ≤ r.last_address

instance (r : KMemoryRegion) : Decidable (ValidRegion r) := by
  unfold ValidRegion; infer_instance

/-- The tree invariant: every stored region has ordered bounds and the
regions appear in strictly increasing, pairwise non-overlapping address
order. -/
def WellFormed (t : List KMemoryRegion) : Prop :=
  (∀ r ∈ t, ValidRegion r) ∧
    t.Pairwise (fun a b => a.last_address < b.address)

instance (t : List KMemoryRegion) : Decidable (WellFormed t) := by
  unfold WellFormed; infer_instance

/-- The zero-length probe region `KMemoryRegion(address, address, 0, 0)`
built by `KMemoryRegionTree::Find` and `FindModifiable` (the four-argument
constructor, so `pair_address` defaults to the maximum `u64`). -/
def probeRegion (a : Nat) : KMemoryRegion := KMemoryRegion.mkTyped a a 0 0

/-- `KMemoryRegionTree::Find`: the intrusive red-black-tree container is
not among the source files, so the tree is modelled as an address-sorted
list and the search is driven by `KMemoryRegion::Compare` exactly as the
container's `find` is: return the stored region comparing equal to the
zero-length probe. -/
def Find (t : List KMemoryRegion) (a : Nat) : Option KMemoryRegion :=
  t.find? (fun r => KMemoryRegion.Compare (probeRegion a) r == 0)

/-- `KMemoryRegionTree::FindFirstDerived`: first region in iteration
(address) order derived from the queried type. -/
def FindFirstDerived (t : List KMemoryRegion) (type_id : Nat) :
    Option KMemoryRegion :=
  t.find? (fun r => r.IsDerivedFrom type_id)

/-- `KMemoryRegionTree::FindLastDerived`: the forward scan keeps the last
region derived from the queried type. -/
def FindLastDerived : List KMemoryRegion → Nat → Option KMemoryRegion
  | [], _ => none
  | r :: rest, ty =>
    match FindLastDerived rest ty with
    | some l => some l
    | none => if r.IsDerivedFrom ty then some r else none

/-- `KMemoryRegionTree::GetDerivedRegionExtents`: the scan records the
first derived region once and the last derived region at every match; the
trailing `ASSERT`s make the no-match case fatal (`none`). -/
def GetDerivedRegionExtents (t : List KMemoryRegion) (type_id : Nat) :
    Option (KMemoryRegion × KMemoryRegion) :=
  (FindFirstDerived t type_id).bind fun f =>
    (FindLastDerived t type_id).map fun l => (f, l)

/-- Modelled from the spec: the split step of `KMemoryRegionTree::Insert`
(declared in `k_memory_region.h`; its defining source file is not
present).  The located region is replaced by up to three pieces: an
unchanged piece before the inserted range (if any), the newly classified
middle piece carrying `new_attr`/`type_id`, and an unchanged piece after
the range (if any). -/
def splitPieces (found : KMemoryRegion) (address size type_id new_attr : Nat) :
    List KMemoryRegion :=
  (if found.address < address then
      [KMemoryRegion.mkFull found.address (address - 1) found.pair_address
        found.attributes found.type_id]
    else []) ++
    [KMemoryRegion.mkFull address (address + size - 1) found.pair_address
      new_attr type_id] ++
    (if address + size ≤ found.last_address then
        [KMemoryRegion.mkFull (address + size) found.last_address
          found.pair_address found.attributes found.type_id]
      else [])

/-- Modelled from the spec: `KMemoryRegionTree::Insert` (declared in
`k_memory_region.h`; its defining source file is not present).  Locate
the region whose span fully contains `[address, address+size)`; if there
is none, return `false` leaving the tree unchanged (the one recoverable
failure); assert that the located region carries exactly `old_attr` (the
fatal `none` branch); otherwise replace it in place by its split pieces
and return `true`. -/
def insertAux (address size type_id new_attr old_attr : Nat) :
    List KMemoryRegion → Option (Bool × List KMemoryRegion)
  | [] => some (false, [])
  | r :: rest =>
    if r.address ≤ address ∧ address + size ≤ r.last_address + 1 then
      if r.attributes = old_attr then
        some (true, splitPieces r address size type_id new_attr ++ rest)
      else none
    else
      match insertAux address size type_id new_attr old_attr rest with
      | some (b, rest2) => some (b, r :: rest2)
      | none => none

/-- Entry point pairing `insertAux` with the tree-as-list model. -/
def Insert (t : List KMemoryRegion) (address size type_id new_attr old_attr : Nat) :
    Option (Bool × List KMemoryRegion) :=
  insertAux address size type_id new_attr old_attr t

/-- The requested range `[address, address+size)` lies inside the span of
a single stored region. -/
def RangeContained (t : List KMemoryRegion) (address size : Nat) : Prop :=
  ∃ r ∈ t, r.address ≤ address ∧ address + size ≤ r.last_address + 1

instance (t : List KMemoryRegion) (address size : Nat) :
    Decidable (RangeContained t address size) := by
  unfold RangeContained; infer_instance

/-- Address `x` is covered by some region of `l`. -/
def Covers (l : List KMemoryRegion) (x : Nat) : Prop :=
  ∃ r ∈ l, r.address ≤ x ∧ x ≤ r.last_address

/-- `KMemoryRegionAllocator::MaxMemoryRegions`, the compile-time slot
count of the arena in the source. -/
def MaxMemoryRegions : Nat := 200

/-- `KMemoryRegionAllocator`: a fixed array of region slots
(`region_heap{}`, zero-initialized) plus a monotonically increasing
occupied count.  The compile-time slot count is kept as a field so that
statements can range over it; the source fixes it to
`MaxMemoryRegions`. -/
structure KMemoryRegionAllocator where
  capacity : Nat
  region_heap : List KMemoryRegion
  num_regions : Nat
  deriving Repr, DecidableEq

/-- A freshly constructed allocator with `c` zeroed slots and no occupied
regions; the source constructs it with `c = MaxMemoryRegions`. -/
def freshAllocator (c : Nat) : KMemoryRegionAllocator :=
  ⟨c, List.replicate c KMemoryRegion.mkDefault, 0⟩

/-- `KMemoryRegionAllocator::Allocate`:
`ASSERT(num_regions < MaxMemoryRegions)` (the `none` branch), then
placement-construct the new region in slot `num_regions` and
post-increment the count; the returned index is the slot used. -/
def Allocate (alloc : KMemoryRegionAllocator) (r : KMemoryRegion) :
    Option (KMemoryRegionAllocator × Nat) :=
  if alloc.num_regions < alloc.capacity then
    some (⟨alloc.capacity, alloc.region_heap.set alloc.num_regions r,
      alloc.num_regions + 1⟩, alloc.num_regions)
  else none

/-- `n` successive `Allocate` calls, propagating the fatal branch. -/
def allocateN (r : KMemoryRegion) :
    KMemoryRegionAllocator → Nat → Option KMemoryRegionAllocator
  | a, 0 => some a
  | a, n + 1 =>
    match Allocate a r with
    | some (a2, _) => allocateN r a2 n
    | none => none

/-- Modelled from the spec: the per-region candidate placements of
`GetRandomAlignedRegion` — every alignment-valid start address whose
whole range fits inside the region. -/
def regionCandidates (r : KMemoryRegion) (size alignment : Nat) : List Nat :=
  (List.range (r.last_address + 2)).filter
    (fun c => decide (r.address ≤ c) && (c % alignment == 0) &&
      decide (c + size ≤ r.last_address + 1))

/-- Modelled from the spec: `KMemoryRegionTree::GetRandomAlignedRegion`
(declared in `k_memory_region.h`; its defining source file is not
present).  Per the spec it enumerates, over all stored regions derived
from the queried type, the alignment-valid offsets with room for `size`,
and chooses uniformly at random among them; the entropy source is
modelled as the `choice` argument indexing into the candidate list.  An
empty candidate list is the fatal path (`none`). -/
def GetRandomAlignedRegion (t : List KMemoryRegion)
    (size alignment type_id choice : Nat) : Option Nat :=
  let cs := (t.filter (fun r => r.IsDerivedFrom type_id)).flatMap
    (fun r => regionCandidates r size alignment)
  cs.get? (choice % cs.length)

/-- `KMemoryRegionTree::GetRandomAlignedRegionWithGuard` (defined in the
header): request `size + 2 * guard_size` and return the result offset by
`guard_size`. -/
def GetRandomAlignedRegionWithGuard (t : List KMemoryRegion)
    (size alignment type_id guard_size choice : Nat) : Option Nat :=
  (GetRandomAlignedRegion t (size + 2 * guard_size) alignment type_id
    choice).map (fun a => a + guard_size)

/-- C3 helper: a successful `SetType` literally replaces the type bitmask. -/
theorem SetType_eq_some_iff (r : KMemoryRegion) (t : Nat) :
    (∃ r2, r.SetType t = some r2) ↔ r.CanDerive t = true := by
  unfold KMemoryRegion.SetType
  by_cases h : r.CanDerive t = true
  · simp [h]
  · simp [h]

/-- **C3.**  `set_type(t)` succeeds (avoids the assertion) iff
`can_derive(t)` holds beforehand; on success the region's type bitmask
equals `t` and `is_derived_from(t)` holds afterwards. -/
theorem C3_set_type_guard (r : KMemoryRegion) (t : Nat) :
    ((∃ r2, r.SetType t = some r2) ↔ r.CanDerive t = true) ∧
      (∀ r2, r.SetType t = some r2 →
        r2.type_id = t ∧ r2.IsDerivedFrom t = true) := by
  refine ⟨SetType_eq_some_iff r t, ?_⟩
  intro r2 h
  unfold KMemoryRegion.SetType at h
  by_cases hc : r.CanDerive t = true
  · simp only [hc, if_true, Option.some.injEq] at h
    subst h
    refine ⟨rfl, ?_⟩
    simp [KMemoryRegion.IsDerivedFrom, Nat.or_self]
  · simp [hc] at h

/-- Witness for C3 at a concrete region: type `0b0101` can derive
`0b0111`, and the updated region reports both facts. -/
theorem C3_set_type_guard_witness :
    (∃ r2, (KMemoryRegion.mkTyped 0 10 0 5).SetType 7 = some r2) ∧
      ((KMemoryRegion.mkTyped 0 10 0 5).SetType 7 =
          some (KMemoryRegion.mkFull 0 10 (U64 - 1) 0 7) →
        (KMemoryRegion.mkFull 0 10 (U64 - 1) 0 7).type_id = 7 ∧
          (KMemoryRegion.mkFull 0 10 (U64 - 1) 0 7).IsDerivedFrom 7 = true) :=
  ⟨(C3_set_type_guard (KMemoryRegion.mkTyped 0 10 0 5) 7).1.mpr (by decide),
    (C3_set_type_guard (KMemoryRegion.mkTyped 0 10 0 5) 7).2
      (KMemoryRegion.mkFull 0 10 (U64 - 1) 0 7)⟩

/-- **C10.**  A successful `set_type` preserves every previously held
derivation: if `is_derived_from(u)` and `can_derive(t)` hold, then after
`set_type(t)` both `is_derived_from(u)` and `is_derived_from(t)` hold. -/
theorem C10_derivation_preserved (r : KMemoryRegion) (u t : Nat)
    (hu : r.IsDerivedFrom u = true) (hc : r.CanDerive t = true) :
    ∃ r2, r.SetType t = some r2 ∧
      r2.IsDerivedFrom u = true ∧ r2.IsDerivedFrom t = true := by
  unfold KMemoryRegion.IsDerivedFrom at hu
  unfold KMemoryRegion.CanDerive at hc
  rw [beq_iff_eq] at hu hc
  refine ⟨{ r with type_id := t }, ?_, ?_, ?_⟩
  · unfold KMemoryRegion.SetType KMemoryRegion.CanDerive
    simp [hc]
  · unfold KMemoryRegion.IsDerivedFrom
    rw [beq_iff_eq]
    calc t ||| u = (r.type_id ||| t) ||| u := by rw [hc]
      _ = (r.type_id ||| u) ||| t := by
            rw [Nat.or_assoc, Nat.or_assoc, Nat.or_comm u t]
      _ = r.type_id ||| t := by rw [hu]
      _ = t := hc
  · unfold KMemoryRegion.IsDerivedFrom
    rw [beq_iff_eq]
    exact Nat.or_self t

/-- Witness for C10: region of type `0b0001` derived from `0b0001`,
retyped to `0b0011`. -/
theorem C10_derivation_preserved_witness :
    ∃ r2, (KMemoryRegion.mkTyped 0 10 0 1).SetType 3 = some r2 ∧
      r2.IsDerivedFrom 1 = true ∧ r2.IsDerivedFrom 3 = true :=
  C10_derivation_preserved (KMemoryRegion.mkTyped 0 10 0 1) 1 3
    (by decide) (by decide)

/-- **C8.**  For a region whose 64-bit end address is non-zero,
`contains(a)` decides `address <= a <= last_address`; when the end address
is zero (exactly when `last_address` is the maximum `u64`) the call is the
fatal assertion. -/
theorem C8_contains_guard (r : KMemoryRegion) (a : Nat)
    (h64 : r.last_address < U64) :
    (r.GetEndAddress ≠ 0 →
        (r.Contains a = some true ↔ r.address ≤ a ∧ a ≤ r.last_address)) ∧
      (r.GetEndAddress = 0 ↔ r.last_address = U64 - 1) ∧
      (r.GetEndAddress = 0 → r.Contains a = none) := by
  have hU : 0 < U64 := by unfold U64; positivity
  refine ⟨?_, ?_, ?_⟩
  · intro hne
    unfold KMemoryRegion.Contains
    rw [if_neg hne]
    constructor
    · intro h
      exact of_decide_eq_true (Option.some.inj h)
    · intro h
      rw [decide_eq_true h]
  · unfold KMemoryRegion.GetEndAddress
    constructor
    · intro h
      have hle : r.last_address + 1 ≤ U64 := h64
      rcases Nat.lt_or_ge (r.last_address + 1) U64 with hlt | hge
      · rw [Nat.mod_eq_of_lt hlt] at h
        omega
      · have : r.last_address + 1 = U64 := le_antisymm hle hge
        omega
    · intro h
      have : r.last_address + 1 = U64 := by omega
      rw [this, Nat.mod_self]
  · intro h
    unfold KMemoryRegion.Contains
    simp [h]

/-- Witness for C8 at the region `[2, 5]` (end address `6 ≠ 0`) probed at
`3`, and at a region whose `last_address` is the maximum `u64`. -/
theorem C8_contains_guard_witness :
    ((KMemoryRegion.mkBounds 2 5).Contains 3 = some true ↔
        (KMemoryRegion.mkBounds 2 5).address ≤ 3 ∧
          3 ≤ (KMemoryRegion.mkBounds 2 5).last_address) ∧
      (KMemoryRegion.mkBounds 0 (U64 - 1)).Contains 3 = none :=
  ⟨(C8_contains_guard (KMemoryRegion.mkBounds 2 5) 3 (by decide)).1
      (by decide),
    (C8_contains_guard (KMemoryRegion.mkBounds 0 (U64 - 1)) 3
        (by decide)).2.2 (by decide)⟩

/-- The probe comparison is zero exactly on regions whose span contains
the probed address. -/
theorem probe_matches (a : Nat) (s : KMemoryRegion) :
    (KMemoryRegion.Compare (probeRegion a) s == 0) = true ↔
      s.address ≤ a ∧ a ≤ s.last_address := by
  rw [beq_iff_eq]
  unfold KMemoryRegion.Compare probeRegion KMemoryRegion.mkTyped KMemoryRegion.mkFull
  dsimp only
  split_ifs with h1 h2
  · constructor
    · intro h; exact absurd h (by decide)
    · intro h; exfalso; omega
  · constructor
    · intro h; omega
    · intro h; rfl
  · constructor
    · intro h; exact absurd h (by decide)
    · intro h; exfalso; omega

/-- In a well-formed tree the unique region whose span contains `a` is
returned by `Find a`. -/
theorem find_point_lookup (t : List KMemoryRegion) (a : Nat)
    (r : KMemoryRegion) (hwf : WellFormed t) (hr : r ∈ t)
    (h1 : r.address ≤ a) (h2 : a ≤ r.last_address) :
    Find t a = some r := by
  induction t with
  | nil => cases hr
  | cons s rest ih =>
    obtain ⟨hv, hp⟩ := hwf
    rw [List.pairwise_cons] at hp
    unfold Find
    rcases List.mem_cons.mp hr with heq | hmem
    · subst heq
      simp only [List.find?_cons, (probe_matches a r).mpr ⟨h1, h2⟩]
    · have hsr : s.last_address < r.address := hp.1 r hmem
      have hsv : ValidRegion s := hv s (List.mem_cons_self s rest)
      unfold ValidRegion at hsv
      have hfalse : (KMemoryRegion.Compare (probeRegion a) s == 0) = false := by
        cases hb : (KMemoryRegion.Compare (probeRegion a) s == 0) with
        | false => rfl
        | true =>
          have hin := (probe_matches a s).mp hb
          exfalso; omega
      simp only [List.find?_cons, hfalse]
      exact ih ⟨fun x hx => hv x (List.mem_cons_of_mem _ hx), hp.2⟩ hmem

/-- **C2.**  In a well-formed tree, `find(a)` returns the stored region
whose span contains `a`; the compare rule ranks the zero-length probe as
equal to exactly the span-containing regions, below regions starting
above `a`, and above regions ending below `a`. -/
theorem C2_find_point_lookup (t : List KMemoryRegion) (a : Nat)
    (r : KMemoryRegion) (hwf : WellFormed t) (hr : r ∈ t)
    (h1 : r.address ≤ a) (h2 : a ≤ r.last_address) :
    Find t a = some r ∧
      ∀ s : KMemoryRegion, ValidRegion s →
        (KMemoryRegion.Compare (probeRegion a) s = 0 ↔
            s.address ≤ a ∧ a ≤ s.last_address) ∧
          (KMemoryRegion.Compare (probeRegion a) s = -1 ↔ a < s.address) ∧
          (KMemoryRegion.Compare (probeRegion a) s = 1 ↔ s.last_address < a) := by
  refine ⟨find_point_lookup t a r hwf hr h1 h2, ?_⟩
  intro s hs
  unfold ValidRegion at hs
  unfold KMemoryRegion.Compare probeRegion KMemoryRegion.mkTyped KMemoryRegion.mkFull
  dsimp only
  split_ifs with hc1 hc2 <;>
    refine ⟨Iff.intro ?_ ?_, Iff.intro ?_ ?_, Iff.intro ?_ ?_⟩ <;>
    intro h <;>
    first
      | rfl
      | exact absurd h (by decide)
      | omega

/-- Witness for C2: two seeded regions, probe at `12` inside the second. -/
theorem C2_find_point_lookup_witness :
    Find [KMemoryRegion.mkTyped 0 9 0 1, KMemoryRegion.mkTyped 10 19 0 2] 12 =
      some (KMemoryRegion.mkTyped 10 19 0 2) :=
  (C2_find_point_lookup
      [KMemoryRegion.mkTyped 0 9 0 1, KMemoryRegion.mkTyped 10 19 0 2] 12
      (KMemoryRegion.mkTyped 10 19 0 2)
      (by decide) (by decide) (by decide) (by decide)).1

/-- The backward scan finds nothing exactly when no region is derived. -/
theorem findLastDerived_eq_none_iff (t : List KMemoryRegion) (ty : Nat) :
    FindLastDerived t ty = none ↔
      ∀ r ∈ t, r.IsDerivedFrom ty = false := by
  induction t with
  | nil => simp [FindLastDerived]
  | cons s rest ih =>
    unfold FindLastDerived
    cases hrest : FindLastDerived rest ty with
    | some l =>
      simp only [List.mem_cons]
      constructor
      · intro h; cases h
      · intro h
        have : ∀ r ∈ rest, r.IsDerivedFrom ty = false :=
          fun r hr => h r (Or.inr hr)
        rw [ih.mpr this] at hrest
        cases hrest
    | none =>
      have hall : ∀ r ∈ rest, r.IsDerivedFrom ty = false := ih.mp hrest
      by_cases hs : s.IsDerivedFrom ty = true
      · simp only [hs, if_true, List.mem_cons]
        constructor
        · intro h; cases h
        · intro h
          have := h s (Or.inl rfl)
          rw [hs] at this; cases this
      · have hs2 : s.IsDerivedFrom ty = false := by
          cases hb : s.IsDerivedFrom ty
          · rfl
          · exact absurd hb hs
        simp only [hs2, Bool.false_eq_true, if_false, List.mem_cons, true_iff]
        intro r hr
        rcases hr with heq | hmem
        · subst heq; exact hs2
        · exact hall r hmem

/-- In a well-formed tree the backward scan returns an address-maximal
derived region. -/
theorem findLastDerived_spec (t : List KMemoryRegion) (ty : Nat)
    (l : KMemoryRegion) (hwf : WellFormed t)
    (h : FindLastDerived t ty = some l) :
    l ∈ t ∧ l.IsDerivedFrom ty = true ∧
      ∀ r ∈ t, r.IsDerivedFrom ty = true → r.address ≤ l.address := by
  induction t with
  | nil => cases h
  | cons s rest ih =>
    obtain ⟨hv, hp⟩ := hwf
    rw [List.pairwise_cons] at hp
    have hsv : ValidRegion s := hv s (List.mem_cons_self s rest)
    unfold ValidRegion at hsv
    unfold FindLastDerived at h
    cases hrest : FindLastDerived rest ty with
    | some l2 =>
      rw [hrest] at h
      dsimp only at h
      have hl2 : l2 = l := Option.some.inj h
      subst hl2
      obtain ⟨hmem, hder, hmax⟩ :=
        ih ⟨fun x hx => hv x (List.mem_cons_of_mem _ hx), hp.2⟩ hrest
      refine ⟨List.mem_cons_of_mem _ hmem, hder, ?_⟩
      intro r hr hrd
      rcases List.mem_cons.mp hr with heq | hmem2
      · subst heq
        have := hp.1 l2 hmem
        omega
      · exact hmax r hmem2 hrd
    | none =>
      rw [hrest] at h
      dsimp only at h
      have hall : ∀ r ∈ rest, r.IsDerivedFrom ty = false :=
        (findLastDerived_eq_none_iff rest ty).mp hrest
      by_cases hs : s.IsDerivedFrom ty = true
      · rw [if_pos hs] at h
        have hsl : s = l := Option.some.inj h
        subst hsl
        refine ⟨List.mem_cons_self s rest, hs, ?_⟩
        intro r hr hrd
        rcases List.mem_cons.mp hr with heq | hmem2
        · subst heq; exact le_refl _
        · rw [hall r hmem2] at hrd; cases hrd
      · rw [if_neg hs] at h
        cases h

/-- In a well-formed tree the forward scan returns an address-minimal
derived region. -/
theorem findFirstDerived_spec (t : List KMemoryRegion) (ty : Nat)
    (f : KMemoryRegion) (hwf : WellFormed t)
    (h : FindFirstDerived t ty = some f) :
    f ∈ t ∧ f.IsDerivedFrom ty = true ∧
      ∀ r ∈ t, r.IsDerivedFrom ty = true → f.address ≤ r.address := by
  induction t with
  | nil => cases h
  | cons s rest ih =>
    obtain ⟨hv, hp⟩ := hwf
    rw [List.pairwise_cons] at hp
    have hsv : ValidRegion s := hv s (List.mem_cons_self s rest)
    unfold ValidRegion at hsv
    unfold FindFirstDerived at h
    cases hs : s.IsDerivedFrom ty with
    | true =>
      simp only [List.find?_cons, hs] at h
      have hsf : s = f := Option.some.inj h
      subst hsf
      refine ⟨List.mem_cons_self s rest, hs, ?_⟩
      intro r hr hrd
      rcases List.mem_cons.mp hr with heq | hmem2
      · subst heq; exact le_refl _
      · have := hp.1 r hmem2
        omega
    | false =>
      simp only [List.find?_cons, hs] at h
      obtain ⟨hmem, hder, hmin⟩ :=
        ih ⟨fun x hx => hv x (List.mem_cons_of_mem _ hx), hp.2⟩ h
      refine ⟨List.mem_cons_of_mem _ hmem, hder, ?_⟩
      intro r hr hrd
      rcases List.mem_cons.mp hr with heq | hmem2
      · subst heq; rw [hs] at hrd; cases hrd
      · exact hmin r hmem2 hrd

/-- **C7.**  `get_derived_region_extents(ty)` hits its fatal assertion
exactly when no stored region is derived from `ty`; otherwise it returns
the address-first and address-last derived regions. -/
theorem C7_derived_extents (t : List KMemoryRegion) (ty : Nat)
    (hwf : WellFormed t) :
    (GetDerivedRegionExtents t ty = none ↔
        ∀ r ∈ t, r.IsDerivedFrom ty = false) ∧
      ∀ f l, GetDerivedRegionExtents t ty = some (f, l) →
        f ∈ t ∧ f.IsDerivedFrom ty = true ∧
          l ∈ t ∧ l.IsDerivedFrom ty = true ∧
          ∀ r ∈ t, r.IsDerivedFrom ty = true →
            f.address ≤ r.address ∧ r.address ≤ l.address := by
  constructor
  · unfold GetDerivedRegionExtents
    cases hf : FindFirstDerived t ty with
    | none =>
      unfold FindFirstDerived at hf
      rw [List.find?_eq_none] at hf
      simp only [Option.none_bind, true_iff]
      intro r hr
      cases hb : r.IsDerivedFrom ty
      · rfl
      · exact absurd hb (hf r hr)
    | some f =>
      cases hl : FindLastDerived t ty with
      | none =>
        have hall := (findLastDerived_eq_none_iff t ty).mp hl
        simp only [hl, Option.some_bind, Option.map_none', true_iff]
        exact hall
      | some l =>
        simp only [hl, Option.some_bind, Option.map_some']
        obtain ⟨hmem, hder, _⟩ := findFirstDerived_spec t ty f hwf hf
        constructor
        · intro hcon; cases hcon
        · intro hall
          rw [hall f hmem] at hder
          cases hder
  · intro f l h
    unfold GetDerivedRegionExtents at h
    cases hf : FindFirstDerived t ty with
    | none => rw [hf] at h; cases h
    | some f2 =>
      cases hl : FindLastDerived t ty with
      | none =>
        rw [hf, hl] at h
        simp only [Option.some_bind, Option.map_none'] at h
        exact Option.noConfusion h
      | some l2 =>
        rw [hf, hl] at h
        simp only [Option.some_bind, Option.map_some', Option.some.injEq,
          Prod.mk.injEq] at h
        obtain ⟨hef, hel⟩ := h
        subst hef; subst hel
        obtain ⟨hfm, hfd, hfmin⟩ := findFirstDerived_spec t ty f2 hwf hf
        obtain ⟨hlm, hld, hlmax⟩ := findLastDerived_spec t ty l2 hwf hl
        exact ⟨hfm, hfd, hlm, hld, fun r hr hrd =>
          ⟨hfmin r hr hrd, hlmax r hr hrd⟩⟩

/-- Witness for C7: a three-region tree where types `3` and `5` both
derive from `1`; the extents run from the first to the third region. -/
theorem C7_derived_extents_witness :
    KMemoryRegion.mkTyped 0 9 0 3 ∈
      [KMemoryRegion.mkTyped 0 9 0 3, KMemoryRegion.mkTyped 10 19 0 1,
        KMemoryRegion.mkTyped 20 29 0 5] :=
  ((C7_derived_extents
      [KMemoryRegion.mkTyped 0 9 0 3, KMemoryRegion.mkTyped 10 19 0 1,
        KMemoryRegion.mkTyped 20 29 0 5] 1 (by decide)).2
    (KMemoryRegion.mkTyped 0 9 0 3) (KMemoryRegion.mkTyped 20 29 0 5)
    (by decide)).1

/-- **C9 (counterexample).**  The two-argument constructor supplies no
`pair_address`, yet the member initializer zero-fills it, so the claimed
default of `2^64 - 1` fails on it. -/
theorem C9_pair_default_counterexample :
    (KMemoryRegion.mkBounds 5 7).pair_address ≠ U64 - 1 := by
  unfold KMemoryRegion.mkBounds U64
  norm_num

/-- **C9 (amended).**  Only the four-argument bounds/attributes/type
constructor defaults `pair_address` to the maximum `u64`; the default and
bounds-only constructors zero-initialize it. -/
theorem C9_pair_default (a la attr ty : Nat) :
    (KMemoryRegion.mkTyped a la attr ty).pair_address = U64 - 1 ∧
      (KMemoryRegion.mkBounds a la).pair_address = 0 ∧
      KMemoryRegion.mkDefault.pair_address = 0 :=
  ⟨rfl, rfl, rfl⟩

/-- `insertAux` passes untouched over leading regions that do not contain
the requested range. -/
theorem insertAux_skip (address size type_id new_attr old_attr : Nat)
    (pre rest : List KMemoryRegion)
    (hpre : ∀ s ∈ pre,
      ¬ (s.address ≤ address ∧ address + size ≤ s.last_address + 1)) :
    insertAux address size type_id new_attr old_attr (pre ++ rest) =
      (insertAux address size type_id new_attr old_attr rest).map
        (fun br => (br.1, pre ++ br.2)) := by
  induction pre with
  | nil =>
    cases h : insertAux address size type_id new_attr old_attr rest with
    | none => simp [h]
    | some br => simp [h]
  | cons s pre2 ih =>
    have hs := hpre s (List.mem_cons_self s pre2)
    have ih2 := ih (fun x hx => hpre x (List.mem_cons_of_mem _ hx))
    cases h : insertAux address size type_id new_attr old_attr rest with
    | none =>
      rw [h] at ih2
      simp only [Option.map_none'] at ih2
      rw [List.cons_append]
      unfold insertAux
      rw [if_neg hs, ih2]
      rfl
    | some br =>
      rw [h] at ih2
      simp only [Option.map_some'] at ih2
      rw [List.cons_append]
      unfold insertAux
      rw [if_neg hs, ih2]
      rfl

/-- When no stored region contains the range, `insertAux` reports the
recoverable failure and returns the list unchanged. -/
theorem insertAux_not_contained (address size type_id new_attr old_attr : Nat)
    (t : List KMemoryRegion) (hnc : ¬ RangeContained t address size) :
    insertAux address size type_id new_attr old_attr t = some (false, t) := by
  induction t with
  | nil => rfl
  | cons r rest ih =>
    have hr : ¬ (r.address ≤ address ∧ address + size ≤ r.last_address + 1) :=
      fun hcon => hnc ⟨r, List.mem_cons_self r rest, hcon⟩
    have hrest : ¬ RangeContained rest address size := by
      rintro ⟨s, hs, hp⟩
      exact hnc ⟨s, List.mem_cons_of_mem _ hs, hp⟩
    unfold insertAux
    rw [if_neg hr, ih hrest]

/-- A `false` result can only come from the not-contained branch and
carries the unchanged list. -/
theorem insertAux_false_inv (address size type_id new_attr old_attr : Nat)
    (t t2 : List KMemoryRegion)
    (h : insertAux address size type_id new_attr old_attr t = some (false, t2)) :
    t2 = t ∧ ¬ RangeContained t address size := by
  induction t generalizing t2 with
  | nil =>
    refine ⟨?_, ?_⟩
    · have : ([] : List KMemoryRegion) = t2 :=
        congrArg Prod.snd (Option.some.inj h)
      exact this.symm
    · rintro ⟨s, hs, _⟩
      cases hs
  | cons r rest ih =>
    unfold insertAux at h
    by_cases hc : r.address ≤ address ∧ address + size ≤ r.last_address + 1
    · rw [if_pos hc] at h
      by_cases ha : r.attributes = old_attr
      · rw [if_pos ha] at h
        have : true = false := congrArg Prod.fst (Option.some.inj h)
        cases this
      · rw [if_neg ha] at h
        cases h
    · rw [if_neg hc] at h
      cases hrest : insertAux address size type_id new_attr old_attr rest with
      | none => rw [hrest] at h; cases h
      | some br =>
        rw [hrest] at h
        dsimp only at h
        have hb : br.1 = false := congrArg Prod.fst (Option.some.inj h)
        have ht2 : r :: br.2 = t2 := congrArg Prod.snd (Option.some.inj h)
        have hrest2 : insertAux address size type_id new_attr old_attr rest =
            some (false, br.2) := by
          rw [hrest, ← hb]
        obtain ⟨heq, hnc⟩ := ih br.2 hrest2
        refine ⟨by rw [← ht2, heq], ?_⟩
        rintro ⟨s, hs, hs1, hs2⟩
        rcases List.mem_cons.mp hs with heq2 | hmem
        · subst heq2; exact hc ⟨hs1, hs2⟩
        · exact hnc ⟨s, hmem, hs1, hs2⟩

/-- **C6.**  `insert` returns `false` with the tree unchanged exactly
when the requested range is not fully contained in the span of a single
existing region; every other outcome is a successful split or the fatal
attribute assertion. -/
theorem C6_insert_recoverable_failure
    (t : List KMemoryRegion) (address size type_id new_attr old_attr : Nat) :
    (¬ RangeContained t address size →
        Insert t address size type_id new_attr old_attr = some (false, t)) ∧
      ∀ t2, Insert t address size type_id new_attr old_attr = some (false, t2) →
        t2 = t ∧ ¬ RangeContained t address size := by
  constructor
  · intro hnc
    exact insertAux_not_contained address size type_id new_attr old_attr t hnc
  · intro t2 h
    exact insertAux_false_inv address size type_id new_attr old_attr t t2 h

/-- Witness for C6: a range crossing the boundary of the only stored
region is rejected without changing the tree. -/
theorem C6_insert_recoverable_failure_witness :
    Insert [KMemoryRegion.mkTyped 0 15 0 1] 8 16 2 1 0 =
      some (false, [KMemoryRegion.mkTyped 0 15 0 1]) :=
  (C6_insert_recoverable_failure [KMemoryRegion.mkTyped 0 15 0 1] 8 16 2 1 0).1
    (by decide)

/-- Membership in a conditional singleton yields the condition and the
equality. -/
theorem mem_ite_singleton {α : Type} {c : Prop} [Decidable c] {q piece : α}
    (h : q ∈ (if c then [piece] else ([] : List α))) : c ∧ q = piece := by
  split_ifs at h with hc
  · exact ⟨hc, List.mem_singleton.mp h⟩
  · cases h

/-- Structural facts about the split pieces: each piece is valid and sits
inside the located region's span, the pieces are sorted and
non-overlapping, and together they cover exactly the located span. -/
theorem splitPieces_spec (found : KMemoryRegion)
    (address size type_id new_attr : Nat) (hv : ValidRegion found)
    (hn : 0 < size) (h1 : found.address ≤ address)
    (h2 : address + size ≤ found.last_address + 1) :
    (∀ q ∈ splitPieces found address size type_id new_attr,
        ValidRegion q ∧ found.address ≤ q.address ∧
          q.last_address ≤ found.last_address) ∧
      (splitPieces found address size type_id new_attr).Pairwise
        (fun a b => a.last_address < b.address) ∧
      ∀ x, Covers (splitPieces found address size type_id new_attr) x ↔
        found.address ≤ x ∧ x ≤ found.last_address := by
  unfold ValidRegion at hv
  refine ⟨?_, ?_, ?_⟩
  · intro q hq
    unfold splitPieces at hq
    rw [List.mem_append, List.mem_append] at hq
    rcases hq with (hq | hq) | hq
    · obtain ⟨hc, rfl⟩ := mem_ite_singleton hq
      unfold ValidRegion KMemoryRegion.mkFull
      dsimp only
      omega
    · rw [List.mem_singleton] at hq
      subst hq
      unfold ValidRegion KMemoryRegion.mkFull
      dsimp only
      omega
    · obtain ⟨hc, rfl⟩ := mem_ite_singleton hq
      unfold ValidRegion KMemoryRegion.mkFull
      dsimp only
      omega
  · unfold splitPieces
    split_ifs <;>
      simp [List.pairwise_append, List.pairwise_cons, KMemoryRegion.mkFull] <;>
      omega
  · intro x
    constructor
    · rintro ⟨q, hq, hq1, hq2⟩
      unfold splitPieces at hq
      rw [List.mem_append, List.mem_append] at hq
      rcases hq with (hq | hq) | hq
      · obtain ⟨hc, rfl⟩ := mem_ite_singleton hq
        dsimp only [KMemoryRegion.mkFull] at hq1 hq2
        omega
      · rw [List.mem_singleton] at hq
        subst hq
        dsimp only [KMemoryRegion.mkFull] at hq1 hq2
        omega
      · obtain ⟨hc, rfl⟩ := mem_ite_singleton hq
        dsimp only [KMemoryRegion.mkFull] at hq1 hq2
        omega
    · rintro ⟨hx1, hx2⟩
      unfold Covers splitPieces
      rcases Nat.lt_or_ge x address with hxa | hxa
      · have hc : found.address < address := by omega
        refine ⟨KMemoryRegion.mkFull found.address (address - 1)
          found.pair_address found.attributes found.type_id, ?_, ?_⟩
        · rw [if_pos hc]
          simp
        · dsimp only [KMemoryRegion.mkFull]
          omega
      · rcases Nat.lt_or_ge x (address + size) with hxm | hxm
        · refine ⟨KMemoryRegion.mkFull address (address + size - 1)
            found.pair_address new_attr type_id, ?_, ?_⟩
          · simp
          · dsimp only [KMemoryRegion.mkFull]
            omega
        · have hc : address + size ≤ found.last_address := by omega
          refine ⟨KMemoryRegion.mkFull (address + size) found.last_address
            found.pair_address found.attributes found.type_id, ?_, ?_⟩
          · rw [if_pos hc]
            simp
          · dsimp only [KMemoryRegion.mkFull]
            omega

/-- **C1.**  Inserting `[A+k, A+k+n-1]` with type `T1`/attribute `New`
into a well-formed tree holding `[A, B]` with `T0`/`Old` succeeds and
replaces that region in place by: a `T0`/`Old` piece `[A, A+k-1]` when
`k > 0`, the `T1`/`New` piece `[A+k, A+k+n-1]`, and a `T0`/`Old` piece
`[A+k+n, B]` when nonempty; the pieces cover exactly `[A, B]` and the
resulting tree stays well-formed (pairwise non-overlapping). -/
theorem C1_split_preservation (pre post : List KMemoryRegion)
    (A B k n T0 Old T1 New p : Nat)
    (hwf : WellFormed (pre ++ KMemoryRegion.mkFull A B p Old T0 :: post))
    (hAB : A ≤ B) (hn : 0 < n) (hkn : k + n ≤ B - A + 1) :
    Insert (pre ++ KMemoryRegion.mkFull A B p Old T0 :: post)
        (A + k) n T1 New Old =
      some (true, pre ++
        (splitPieces (KMemoryRegion.mkFull A B p Old T0) (A + k) n T1 New ++
          post)) ∧
      splitPieces (KMemoryRegion.mkFull A B p Old T0) (A + k) n T1 New =
        (if 0 < k then [KMemoryRegion.mkFull A (A + k - 1) p Old T0]
          else []) ++
          [KMemoryRegion.mkFull (A + k) (A + k + n - 1) p New T1] ++
          (if A + k + n ≤ B then [KMemoryRegion.mkFull (A + k + n) B p Old T0]
            else []) ∧
      WellFormed (pre ++
        (splitPieces (KMemoryRegion.mkFull A B p Old T0) (A + k) n T1 New ++
          post)) ∧
      ∀ x, Covers
          (splitPieces (KMemoryRegion.mkFull A B p Old T0) (A + k) n T1 New)
          x ↔ A ≤ x ∧ x ≤ B := by
  obtain ⟨hval, hpw⟩ := hwf
  rw [List.pairwise_append] at hpw
  obtain ⟨hpw_pre, hpw_tail, hcross⟩ := hpw
  rw [List.pairwise_cons] at hpw_tail
  obtain ⟨hFpost, hpw_post⟩ := hpw_tail
  obtain ⟨hbounds, hpw_pieces, hcov⟩ :=
    splitPieces_spec (KMemoryRegion.mkFull A B p Old T0) (A + k) n T1 New
      (by unfold ValidRegion KMemoryRegion.mkFull; dsimp only; omega)
      hn
      (by unfold KMemoryRegion.mkFull; dsimp only; omega)
      (by unfold KMemoryRegion.mkFull; dsimp only; omega)
  refine ⟨?_, ?_, ?_, ?_⟩
  · have hskip : ∀ s ∈ pre,
        ¬ (s.address ≤ A + k ∧ A + k + n ≤ s.last_address + 1) := by
      intro s hs hcon
      have hrel := hcross s hs (KMemoryRegion.mkFull A B p Old T0)
        (List.mem_cons_self _ _)
      dsimp only [KMemoryRegion.mkFull] at hrel
      omega
    unfold Insert
    rw [insertAux_skip (A + k) n T1 New Old pre
      (KMemoryRegion.mkFull A B p Old T0 :: post) hskip]
    have hcond : (KMemoryRegion.mkFull A B p Old T0).address ≤ A + k ∧
        A + k + n ≤ (KMemoryRegion.mkFull A B p Old T0).last_address + 1 := by
      unfold KMemoryRegion.mkFull
      dsimp only
      omega
    unfold insertAux
    rw [if_pos hcond, if_pos (show
      (KMemoryRegion.mkFull A B p Old T0).attributes = Old from rfl)]
    rfl
  · unfold splitPieces
    simp only [KMemoryRegion.mkFull]
    split_ifs <;> first | rfl | (exfalso; omega)
  · refine ⟨?_, ?_⟩
    · intro r hr
      rw [List.mem_append] at hr
      rcases hr with hr | hr
      · exact hval r (by rw [List.mem_append]; exact Or.inl hr)
      · rw [List.mem_append] at hr
        rcases hr with hr | hr
        · exact (hbounds r hr).1
        · exact hval r (by
            rw [List.mem_append, List.mem_cons]
            exact Or.inr (Or.inr hr))
    · rw [List.pairwise_append]
      refine ⟨hpw_pre, ?_, ?_⟩
      · rw [List.pairwise_append]
        refine ⟨hpw_pieces, hpw_post, ?_⟩
        intro a ha b hb
        have h1 := (hbounds a ha).2.2
        have h2 := hFpost b hb
        dsimp only [KMemoryRegion.mkFull] at h1 h2
        omega
      · intro a ha b hb
        rw [List.mem_append] at hb
        rcases hb with hb | hb
        · have h1 := hcross a ha (KMemoryRegion.mkFull A B p Old T0)
            (List.mem_cons_self _ _)
          have h2 := (hbounds b hb).2.1
          dsimp only [KMemoryRegion.mkFull] at h1 h2
          omega
        · exact hcross a ha b (List.mem_cons_of_mem _ hb)
  · intro x
    have := hcov x
    dsimp only [KMemoryRegion.mkFull] at this
    exact this

/-- Witness for C1 at the spec's concrete scenario: the heap region
`[0x0, 0xFFFF]` of type `1`, split by
`insert(0x1000, 0x1000, type 3, new attr 1, old attr 0)`. -/
theorem C1_split_preservation_witness :
    Insert [KMemoryRegion.mkFull 0 65535 0 0 1] (0 + 4096) 4096 3 1 0 =
      some (true, [] ++
        (splitPieces (KMemoryRegion.mkFull 0 65535 0 0 1)
          (0 + 4096) 4096 3 1 ++ [])) :=
  (C1_split_preservation [] [] 0 65535 4096 4096 1 0 3 1 0
    (by decide) (by decide) (by decide) (by decide)).1

/-- While room remains, iterated allocation succeeds and advances the
occupied count one slot per call. -/
theorem allocateN_succeeds (r : KMemoryRegion) (k : Nat) :
    ∀ a : KMemoryRegionAllocator, a.num_regions + k ≤ a.capacity →
      ∃ a2, allocateN r a k = some a2 ∧
        a2.num_regions = a.num_regions + k ∧ a2.capacity = a.capacity := by
  induction k with
  | zero => intro a h; exact ⟨a, rfl, rfl, rfl⟩
  | succ n ih =>
    intro a h
    have hlt : a.num_regions < a.capacity := by omega
    obtain ⟨a2, h1, h2, h3⟩ :=
      ih ⟨a.capacity, a.region_heap.set a.num_regions r, a.num_regions + 1⟩
        (by dsimp only; omega)
    refine ⟨a2, ?_, by dsimp only at h2; omega, by dsimp only at h3; omega⟩
    unfold allocateN Allocate
    rw [if_pos hlt]
    exact h1

/-- Once the count would pass the capacity, some call in the sequence
hits the fatal assertion. -/
theorem allocateN_exhausts (r : KMemoryRegion) (k : Nat) :
    ∀ a : KMemoryRegionAllocator, a.num_regions ≤ a.capacity →
      a.capacity < a.num_regions + k → allocateN r a k = none := by
  induction k with
  | zero => intro a h1 h2; exfalso; omega
  | succ n ih =>
    intro a h1 h2
    by_cases hlt : a.num_regions < a.capacity
    · unfold allocateN Allocate
      rw [if_pos hlt]
      exact ih ⟨a.capacity, a.region_heap.set a.num_regions r,
        a.num_regions + 1⟩ (by dsimp only; omega) (by dsimp only; omega)
    · unfold allocateN Allocate
      rw [if_neg hlt]

/-- **C5.**  Each `allocate` call with room left constructs the region in
the next free slot and bumps the count; with the count at capacity the
call is the fatal assertion.  From a fresh allocator of capacity `c`, the
first `k ≤ c` calls succeed and the `(c+1)`-th call is fatal. -/
theorem C5_allocator_exhaustion (c k : Nat) (r : KMemoryRegion)
    (a : KMemoryRegionAllocator) :
    (a.num_regions < a.capacity →
        Allocate a r =
          some (⟨a.capacity, a.region_heap.set a.num_regions r,
            a.num_regions + 1⟩, a.num_regions)) ∧
      (a.capacity ≤ a.num_regions → Allocate a r = none) ∧
      (k ≤ c → ∃ a2, allocateN r (freshAllocator c) k = some a2 ∧
        a2.num_regions = k) ∧
      allocateN r (freshAllocator c) (c + 1) = none := by
  refine ⟨?_, ?_, ?_, ?_⟩
  · intro h; unfold Allocate; rw [if_pos h]
  · intro h; unfold Allocate; rw [if_neg (by omega)]
  · intro h
    obtain ⟨a2, h1, h2, _⟩ := allocateN_succeeds r k (freshAllocator c)
      (by unfold freshAllocator; dsimp only; omega)
    refine ⟨a2, h1, ?_⟩
    unfold freshAllocator at h2
    dsimp only at h2
    omega
  · exact allocateN_exhausts r (c + 1) (freshAllocator c)
      (by unfold freshAllocator; dsimp only; omega)
      (by unfold freshAllocator; dsimp only; omega)

/-- Witness for C5 at the spec's concrete scenario: an allocator of
capacity 2 exhausts on the third call, and a full allocator's `allocate`
is fatal. -/
theorem C5_allocator_exhaustion_witness :
    allocateN KMemoryRegion.mkDefault (freshAllocator 2) 3 = none ∧
      Allocate
          (KMemoryRegionAllocator.mk 2
            (List.replicate 2 KMemoryRegion.mkDefault) 2)
          KMemoryRegion.mkDefault = none ∧
      Allocate (freshAllocator 2) KMemoryRegion.mkDefault =
        some (⟨2, (List.replicate 2 KMemoryRegion.mkDefault).set 0
          KMemoryRegion.mkDefault, 1⟩, 0) :=
  ⟨(C5_allocator_exhaustion 2 0 KMemoryRegion.mkDefault
      (freshAllocator 2)).2.2.2,
    (C5_allocator_exhaustion 2 0 KMemoryRegion.mkDefault
        (KMemoryRegionAllocator.mk 2
          (List.replicate 2 KMemoryRegion.mkDefault) 2)).2.1 (by decide),
    (C5_allocator_exhaustion 2 0 KMemoryRegion.mkDefault
        (freshAllocator 2)).1 (by decide)⟩

/-- Any address returned by the modelled `GetRandomAlignedRegion` is an
aligned candidate inside a single matching region. -/
theorem getRandomAlignedRegion_spec (t : List KMemoryRegion)
    (size alignment type_id choice base : Nat)
    (h : GetRandomAlignedRegion t size alignment type_id choice = some base) :
    base % alignment = 0 ∧
      ∃ reg ∈ t, reg.IsDerivedFrom type_id = true ∧
        reg.address ≤ base ∧ base + size ≤ reg.last_address + 1 := by
  unfold GetRandomAlignedRegion at h
  have hmem := List.get?_mem h
  rw [List.mem_flatMap] at hmem
  obtain ⟨reg, hreg, hc⟩ := hmem
  rw [List.mem_filter] at hreg
  unfold regionCandidates at hc
  rw [List.mem_filter] at hc
  obtain ⟨_, hcond⟩ := hc
  simp only [Bool.and_eq_true, decide_eq_true_eq, beq_iff_eq] at hcond
  exact ⟨hcond.1.2, reg, hreg.1, hreg.2, hcond.1.1, hcond.2⟩

/-- **C4 (counterexample).**  With alignment `2` and guard size `1`, the
guarded variant returns the odd address `1`: the guard offset breaks the
claimed alignment of the returned address. -/
theorem C4_guard_alignment_counterexample :
    GetRandomAlignedRegionWithGuard [KMemoryRegion.mkTyped 0 15 0 1]
        2 2 1 1 0 = some 1 ∧ ¬ (1 % 2 = 0) := by
  constructor
  · rfl
  · decide

/-- **C4 (amended).**  A successful
`get_random_aligned_region_with_guard(size, align, type, guard)` call
returns exactly `get_random_aligned_region(size + 2*guard, align, type)`
plus `guard`; the start of the flanked range, `r - guard`, is
`align`-aligned (so `r` itself is aligned only when `guard` is a multiple
of `align`), and the whole flanked range `[r-guard, r+size+guard)` lies
inside a single region derived from the requested type. -/
theorem C4_guard_reservation (t : List KMemoryRegion)
    (size alignment type_id guard_size choice r : Nat)
    (h : GetRandomAlignedRegionWithGuard t size alignment type_id guard_size
      choice = some r) :
    (∃ base, GetRandomAlignedRegion t (size + 2 * guard_size) alignment
        type_id choice = some base ∧ r = base + guard_size ∧
        base % alignment = 0) ∧
      guard_size ≤ r ∧ (r - guard_size) % alignment = 0 ∧
      ∃ reg ∈ t, reg.IsDerivedFrom type_id = true ∧
        reg.address ≤ r - guard_size ∧
        r + size + guard_size ≤ reg.last_address + 1 := by
  unfold GetRandomAlignedRegionWithGuard at h
  cases hbase : GetRandomAlignedRegion t (size + 2 * guard_size) alignment
      type_id choice with
  | none => rw [hbase] at h; cases h
  | some base =>
    rw [hbase] at h
    simp only [Option.map_some'] at h
    have hr : base + guard_size = r := Option.some.inj h
    obtain ⟨halign, reg, hreg, hder, hlo, hhi⟩ :=
      getRandomAlignedRegion_spec t (size + 2 * guard_size) alignment
        type_id choice base hbase
    refine ⟨⟨base, rfl, hr.symm, halign⟩, by omega, ?_, reg, hreg,
      hder, by omega, by omega⟩
    have : r - guard_size = base := by omega
    rw [this]
    exact halign

/-- Witness for the amended C4: a successful guarded call on a concrete
tree, with the flanked range inside the matching region. -/
theorem C4_guard_reservation_witness :
    ∃ reg ∈ [KMemoryRegion.mkTyped 0 15 0 1],
      reg.IsDerivedFrom 1 = true ∧ reg.address ≤ 2 - 2 ∧
        2 + 2 + 2 ≤ reg.last_address + 1 :=
  (C4_guard_reservation [KMemoryRegion.mkTyped 0 15 0 1] 2 2 1 2 0 2
    (by rfl)).2.2.2

end Kernel
